import Mathlib

/-!
Shallow embedding of the websocket-chat core (internal/chat/hub.go,
internal/chat/client.go, internal/web/handlers.go) and proofs about its
routing, history, registration and teardown behaviour.

Go maps keyed by client pointers are modelled as association lists keyed by a
numeric client id; Go channels are modelled as explicit bounded queues
(`List ChatMessage`) with the source's non-blocking `select`/`default` send
translated to a length test against the channel capacity.
-/

namespace WsChat

/-- ChatMessage (hub.go): one chat message. `Type`/`From` are Lean keywords so
the fields are `type_`/`from_`; the never-read `Users` field is omitted. -/
structure ChatMessage where
  type_ : String
  from_ : String
  to_ : String
  text : String
  timestamp : Int
  room : String
deriving Repr, DecidableEq

/-- Client (client.go): the per-connection state the core reads and writes.
`mailbox` is the buffered `privateChan` (capacity 16 from `NewClient`). -/
structure ClientState where
  username : String
  roomName : String
  mailbox : List ChatMessage
deriving Repr, DecidableEq

/-- Non-blocking channel send `select { case ch <- msg: default: }` on a
client's `privateChan` (capacity 16): enqueue when there is room, else drop. -/
def trySend (c : ClientState) (msg : ChatMessage) : ClientState :=
  if c.mailbox.length < 16 then { c with mailbox := c.mailbox ++ [msg] } else c

/-- Client.SendMessage (client.go 47-54): non-blocking send into
`privateChan`, returning `nil` both when the message is enqueued and when the
channel is full and the message is dropped. -/
def sendMessage (c : ClientState) (msg : ChatMessage) : ClientState × Option String :=
  if c.mailbox.length < 16 then ({ c with mailbox := c.mailbox ++ [msg] }, none)
  else (c, none)

/-- Room (hub.go): name, member set (`Clients`), the buffered `Broadcast`
channel contents, and the capped `History`. -/
structure RoomState where
  name : String
  members : List Nat
  queue : List ChatMessage
  history : List ChatMessage
deriving Repr, DecidableEq

/-- NewRoom (hub.go): empty member set, empty broadcast channel, empty history. -/
def newRoom (name : String) : RoomState :=
  { name := name, members := [], queue := [], history := [] }

/-- Hub state (hub.go): `Clients` (all live connections) and `Rooms`. -/
structure World where
  clients : List (Nat × ClientState)
  rooms : List (String × RoomState)
deriving Repr, DecidableEq

/-- Lookup in the hub's `Clients` map by client id. -/
def findClient : List (Nat × ClientState) → Nat → Option ClientState
  | [], _ => none
  | p :: rest, id => if p.1 = id then some p.2 else findClient rest id

/-- Lookup in the hub's `Rooms` map. -/
def findRoom : List (String × RoomState) → String → Option RoomState
  | [], _ => none
  | p :: rest, rn => if p.1 = rn then some p.2 else findRoom rest rn

/-- Overwrite an existing key in the `Rooms` map (`h.Rooms[name] = room`). -/
def setRoom : List (String × RoomState) → String → RoomState → List (String × RoomState)
  | [], _, _ => []
  | p :: rest, rn, r => if p.1 = rn then (p.1, r) :: rest else p :: setRoom rest rn r

/-- Update one client's state in the hub's `Clients` map. -/
def updClient (cs : List (Nat × ClientState)) (id : Nat) (f : ClientState → ClientState) :
    List (Nat × ClientState) :=
  cs.map fun p => if p.1 = id then (p.1, f p.2) else p

/-- Hub.GetRoom (hub.go 108-118): return the existing room, or create, store
and start a fresh one. Returns the updated map and the room. -/
def getRoomIn (rooms : List (String × RoomState)) (rn : String) :
    List (String × RoomState) × RoomState :=
  match findRoom rooms rn with
  | some r => (rooms, r)
  | none => (rooms ++ [(rn, newRoom rn)], newRoom rn)

/-- Room.AddClient (hub.go 209-213): `r.Clients[c] = true` (map insert,
idempotent). -/
def insertMember (members : List Nat) (id : Nat) : List Nat :=
  if id ∈ members then members else members ++ [id]

/-- History append + trim of Room.Run (hub.go 191-195): append the message,
then keep only the last 50 entries. -/
def histAppend (hist : List ChatMessage) (msg : ChatMessage) : List ChatMessage :=
  if (hist ++ [msg]).length > 50 then
    (hist ++ [msg]).drop ((hist ++ [msg]).length - 50)
  else hist ++ [msg]

/-- Delivery loop of Room.Run (hub.go 182-189): non-blocking send of `msg` to
every current member's `privateChan`. -/
def deliverToMembers (cs : List (Nat × ClientState)) (members : List Nat)
    (msg : ChatMessage) : List (Nat × ClientState) :=
  cs.map fun p => if p.1 ∈ members then (p.1, trySend p.2 msg) else p

/-- One iteration of Room.Run (hub.go 180-197) applied to a dequeued message:
fan the message out to the members, then append it to the history and trim. -/
def roomStepMsg (w : World) (rn : String) (msg : ChatMessage) : World :=
  match findRoom w.rooms rn with
  | none => w
  | some r =>
      { clients := deliverToMembers w.clients r.members msg,
        rooms := setRoom w.rooms rn { r with history := histAppend r.history msg } }

/-- Room.Run processing a whole sequence of dequeued messages in order. -/
def roomRunMsgs (w : World) (rn : String) (msgs : List ChatMessage) : World :=
  msgs.foldl (fun w' m => roomStepMsg w' rn m) w

/-- Room.Run taking the next message off the room's `Broadcast` channel. -/
def roomProcessNext (w : World) (rn : String) : World :=
  match findRoom w.rooms rn with
  | none => w
  | some r =>
      match r.queue with
      | [] => w
      | m :: rest =>
          roomStepMsg { w with rooms := setRoom w.rooms rn { r with queue := rest } } rn m

/-- Direct-message fan-out of Hub.Broadcast (hub.go 91-101): non-blocking
channel send to every client whose username is the recipient or the sender. -/
def deliverDirect (cs : List (Nat × ClientState)) (msg : ChatMessage) :
    List (Nat × ClientState) :=
  cs.map fun p =>
    if p.2.username = msg.to_ ∨ p.2.username = msg.from_ then (p.1, trySend p.2 msg) else p

/-- Hub.Broadcast (hub.go 87-106): a message with a recipient is fanned out
directly to matching clients; otherwise it is forwarded to the target room's
own broadcast channel, and silently dropped when the room does not exist. -/
def hubBroadcast (w : World) (msg : ChatMessage) : World :=
  if msg.to_ ≠ "" then { w with clients := deliverDirect w.clients msg }
  else
    match findRoom w.rooms msg.room with
    | some r => { w with rooms := setRoom w.rooms msg.room { r with queue := r.queue ++ [msg] } }
    | none => w

/-- The system message published by Hub.RegisterClient (hub.go 58-64). -/
def joinMessage (username roomName : String) (t : Int) : ChatMessage :=
  { type_ := "system", from_ := username, to_ := "", timestamp := t, room := roomName,
    text := "присоединился к комнате " ++ roomName }

/-- The system message published by Hub.UnregisterClient (hub.go 78-84). -/
def leftMessage (username roomName : String) (t : Int) : ChatMessage :=
  { type_ := "system", from_ := username, to_ := "", timestamp := t, room := roomName,
    text := "покинул комнату " ++ roomName }

/-- History replay of Hub.RegisterClient (hub.go 49-55): one
`client.SendMessage` per history entry, in order. The second component
records the sequence of messages passed to SendMessage. -/
def replayHistory (c : ClientState) (hist : List ChatMessage) :
    ClientState × List ChatMessage :=
  hist.foldl (fun acc m => ((sendMessage acc.1 m).1, acc.2 ++ [m])) (c, [])

/-- Hub.RegisterClient (hub.go 41-65): add to the global client set, resolve
or create the room, replay its history to the new client, add the client as a
member, and publish the "joined" system message on the room's channel. The
second component is the replay trace (the SendMessage calls, in order). -/
def registerClient (w : World) (id : Nat) (c : ClientState) (t : Int) :
    World × List ChatMessage :=
  let clients1 := w.clients ++ [(id, c)]
  let rr := getRoomIn w.rooms c.roomName
  let rc := replayHistory c rr.2.history
  let clients2 := updClient clients1 id (fun _ => rc.1)
  let room1 := { rr.2 with members := insertMember rr.2.members id }
  let room2 := { room1 with queue := room1.queue ++ [joinMessage c.username rr.2.name t] }
  ({ clients := clients2, rooms := setRoom rr.1 c.roomName room2 }, rc.2)

/-- Hub.UnregisterClient (hub.go 67-85): remove from the global client set
(closing the client when present), remove the room membership, and publish
the "left" system message on the room's channel. -/
def unregisterClient (w : World) (id : Nat) (username roomName : String) (t : Int) :
    World :=
  let clients1 := w.clients.filter fun p => p.1 ≠ id
  let rr := getRoomIn w.rooms roomName
  let room1 := { rr.2 with members := rr.2.members.filter fun m => m ≠ id }
  let room2 := { room1 with queue := room1.queue ++ [leftMessage username rr.2.name t] }
  { clients := clients1, rooms := setRoom rr.1 roomName room2 }

/-- First half of ChatConnectionHandler (handlers.go 531-541): resolve the
room and insert the new connection straight into the room's member set,
before the hub has processed the registration. -/
def handlerPreInsert (w : World) (id : Nat) (rn : String) : World :=
  let rr := getRoomIn w.rooms rn
  let room1 := { rr.2 with members := insertMember rr.2.members id }
  { w with rooms := setRoom rr.1 rn room1 }

/-- Full ChatConnectionHandler connect path (handlers.go 531-545): the
handler's direct member insert followed by the hub's registration of the
freshly constructed client (empty capacity-16 mailbox). -/
def handlerConnect (w : World) (id : Nat) (username rn : String) (t : Int) : World :=
  (registerClient (handlerPreInsert w id rn) id
    { username := username, roomName := rn, mailbox := [] } t).1

/-- Connection-side teardown state: whether `CloseCh` has been closed, and
how many times the transport (`Conn`) has been closed. -/
structure ConnState where
  closeChClosed : Bool
  connCloseCount : Nat
deriving Repr, DecidableEq

/-- Client.Close (client.go 67-70): `close(c.CloseCh)` followed by
`c.Conn.Close()`. Closing an already-closed Go channel panics at runtime;
the panic is modelled as `none`. -/
def clientClose (c : ConnState) : Option ConnState :=
  if c.closeChClosed then none
  else some { closeChClosed := true, connCloseCount := c.connCloseCount + 1 }

/-- strings.TrimSpace: remove all leading and trailing whitespace characters.
Modelled character-wise because the Go function is a library call. -/
def goTrimSpace (s : String) : String :=
  ⟨((s.data.dropWhile Char.isWhitespace).reverse.dropWhile Char.isWhitespace).reverse⟩

/-- The inbound wire frame read by Client.ReadSocket (client.go 87-91). -/
structure Incoming where
  text : String
  to_ : String
  type_ : String
deriving Repr, DecidableEq

/-- Frame handling of Client.ReadSocket (client.go 100-111): trim all fields,
build the ChatMessage, drop it when the trimmed text is blank, and mark it
"private" when a trimmed recipient is present. -/
def processFrame (username roomName : String) (t : Int) (f : Incoming) :
    Option ChatMessage :=
  let msg : ChatMessage :=
    { type_ := goTrimSpace f.type_, from_ := username, text := goTrimSpace f.text,
      to_ := goTrimSpace f.to_, room := roomName, timestamp := t }
  if msg.text = "" then none
  else if msg.to_ ≠ "" then some { msg with type_ := "private" }
  else some msg

/-- Direct-message fan-out of Client.ReadSocket (client.go 115-121): a
`client.SendMessage` for every client whose username is the recipient or the
sender. -/
def deliverDirectSend (cs : List (Nat × ClientState)) (msg : ChatMessage) :
    List (Nat × ClientState) :=
  cs.map fun p =>
    if p.2.username = msg.to_ ∨ p.2.username = msg.from_ then (p.1, (sendMessage p.2 msg).1)
    else p

/-- Dispatch of Client.ReadSocket (client.go 100-124): skipped frames change
nothing; direct messages are delivered inline through the hub's client set;
room messages are enqueued on the connection's room's broadcast channel. -/
def dispatchFrame (w : World) (username roomName : String) (t : Int) (f : Incoming) :
    World :=
  match processFrame username roomName t f with
  | none => w
  | some msg =>
      if msg.to_ ≠ "" then { w with clients := deliverDirectSend w.clients msg }
      else
        match findRoom w.rooms roomName with
        | some r =>
            { w with rooms := setRoom w.rooms roomName { r with queue := r.queue ++ [msg] } }
        | none => w

/-- The observable routing decision for one inbound frame: dropped, direct
delivery, or broadcast to the connection's room. -/
inductive Dispatch where
  | dropped
  | direct
  | toRoom
deriving Repr, DecidableEq

/-- Routing decision taken by Client.ReadSocket for one frame. -/
def frameRoute (username roomName : String) (t : Int) (f : Incoming) : Dispatch :=
  match processFrame username roomName t f with
  | none => .dropped
  | some msg => if msg.to_ ≠ "" then .direct else .toRoom

/-- Last `n` elements of a list, in order. -/
def takeLast (n : Nat) (xs : List ChatMessage) : List ChatMessage :=
  xs.drop (xs.length - n)

/-- One complete hub operation, as serialized by Hub.Run and the connection
handler: a full connect (handler pre-insert + hub registration), a full
disconnect, one routed message, or one step of a room's processing loop. -/
inductive HubOp where
  | connect (id : Nat) (username roomName : String) (t : Int)
  | disconnect (id : Nat) (username roomName : String) (t : Int)
  | route (msg : ChatMessage)
  | stepRoom (rn : String)

/-- Apply one complete hub operation to the hub state. -/
def applyOp (w : World) : HubOp → World
  | .connect id u rn t => handlerConnect w id u rn t
  | .disconnect id u rn t => unregisterClient w id u rn t
  | .route msg => hubBroadcast w msg
  | .stepRoom rn => roomProcessNext w rn

/-- The claimed registry invariant: every connection in some room's member
set is also present in the hub's global client set. -/
def memberInv (w : World) : Prop :=
  ∀ p ∈ w.rooms, ∀ id ∈ p.2.members, (findClient w.clients id).isSome

/-- Room-map well-formedness: the room names keying `Hub.Rooms` are distinct
(Go map keys are unique). -/
def roomKeysNodup (w : World) : Prop :=
  (w.rooms.map Prod.fst).Nodup

/-- Side condition on a complete operation: a disconnect names the client's
own room (`client.GetRoomName()`), the room that holds its membership. -/
def opOK (w : World) : HubOp → Prop
  | .disconnect id _ rn _ => ∀ p ∈ w.rooms, id ∈ p.2.members → p.1 = rn
  | _ => True

/-- Sample client used by concrete witnesses. -/
def aliceSt : ClientState :=
  { username := "alice", roomName := "lobby", mailbox := [] }

/-- Sample client used by concrete witnesses. -/
def bobSt : ClientState :=
  { username := "bob", roomName := "lobby", mailbox := [] }

/-- Sample client used by concrete witnesses. -/
def carolSt : ClientState :=
  { username := "carol", roomName := "lobby", mailbox := [] }

/-- Sample hub state: alice, bob and carol connected, all members of lobby. -/
def w3 : World :=
  { clients := [(0, aliceSt), (1, bobSt), (2, carolSt)],
    rooms := [("lobby", { name := "lobby", members := [0, 1, 2], queue := [], history := [] })] }

/-- Sample hub state: only alice connected. -/
def w1 : World :=
  { clients := [(0, aliceSt)],
    rooms := [("lobby", { name := "lobby", members := [0], queue := [], history := [] })] }

/-- Sample direct message from alice to bob. -/
def dmMsg : ChatMessage :=
  { type_ := "private", from_ := "alice", to_ := "bob", text := "secret",
    timestamp := 0, room := "lobby" }

/-- Sample direct message from alice to a recipient that is not connected. -/
def ghostMsg : ChatMessage :=
  { type_ := "private", from_ := "alice", to_ := "ghost", text := "hello?",
    timestamp := 0, room := "lobby" }

/-- Sample plain broadcast message. -/
def plainMsg : ChatMessage :=
  { type_ := "message", from_ := "alice", to_ := "", text := "hi",
    timestamp := 0, room := "lobby" }

-- ------------------------------------------------------------------
-- Helper lemmas
-- ------------------------------------------------------------------

theorem takeLast_append_of_le (a b : List ChatMessage) (n : Nat) (h : n ≤ b.length) :
    takeLast n (a ++ b) = takeLast n b := by
  unfold takeLast
  have harith : (a ++ b).length - n = a.length + (b.length - n) := by
    simp only [List.length_append]; omega
  rw [harith, List.drop_append]

theorem takeLast_absorb (n : Nat) (xs ys : List ChatMessage) :
    takeLast n (takeLast n xs ++ ys) = takeLast n (xs ++ ys) := by
  by_cases h : xs.length ≤ n
  · have hx : takeLast n xs = xs := by
      unfold takeLast
      have h0 : xs.length - n = 0 := by omega
      rw [h0, List.drop_zero]
    rw [hx]
  · push_neg at h
    have hsplit : xs = xs.take (xs.length - n) ++ takeLast n xs := by
      unfold takeLast; rw [List.take_append_drop]
    have hlen : (takeLast n xs).length = n := by
      unfold takeLast; rw [List.length_drop]; omega
    conv_rhs => rw [hsplit]
    rw [List.append_assoc]
    have hle : n ≤ (takeLast n xs ++ ys).length := by
      rw [List.length_append, hlen]; omega
    exact (takeLast_append_of_le _ _ _ hle).symm

theorem histAppend_eq_takeLast (hist : List ChatMessage) (m : ChatMessage) :
    histAppend hist m = takeLast 50 (hist ++ [m]) := by
  unfold histAppend takeLast
  by_cases h : (hist ++ [m]).length > 50
  · rw [if_pos h]
  · rw [if_neg h]
    have h0 : (hist ++ [m]).length - 50 = 0 := by omega
    rw [h0, List.drop_zero]

theorem histAppend_length_le (hist : List ChatMessage) (m : ChatMessage)
    (_h : hist.length ≤ 50) : (histAppend hist m).length ≤ 50 := by
  unfold histAppend
  by_cases hgt : (hist ++ [m]).length > 50
  · rw [if_pos hgt, List.length_drop]; omega
  · rw [if_neg hgt]; omega

theorem foldl_histAppend (msgs : List ChatMessage) :
    ∀ hist : List ChatMessage, hist.length ≤ 50 →
      msgs.foldl histAppend hist = takeLast 50 (hist ++ msgs) := by
  induction msgs with
  | nil =>
      intro hist h
      rw [List.foldl_nil, List.append_nil]
      unfold takeLast
      have h0 : hist.length - 50 = 0 := by omega
      rw [h0, List.drop_zero]
  | cons m ms ih =>
      intro hist h
      rw [List.foldl_cons, ih (histAppend hist m) (histAppend_length_le hist m h),
        histAppend_eq_takeLast, takeLast_absorb, List.append_assoc]
      rfl

theorem histAppend_ends_with (hist : List ChatMessage) (m : ChatMessage) :
    ∃ pre, histAppend hist m = pre ++ [m] := by
  rw [histAppend_eq_takeLast]
  unfold takeLast
  refine ⟨(hist ++ [m]).drop ((hist ++ [m]).length - 50) |>.dropLast, ?_⟩
  have hle : (hist ++ [m]).length - 50 ≤ hist.length := by
    simp only [List.length_append, List.length_singleton]; omega
  rw [List.drop_append_of_le_length hle]
  simp

theorem sendMessage_fst (c : ClientState) (m : ChatMessage) :
    (sendMessage c m).1 = trySend c m := by
  unfold sendMessage trySend
  by_cases h : c.mailbox.length < 16 <;> simp [h]

theorem trySend_mailbox (c : ClientState) (m : ChatMessage) :
    (trySend c m).mailbox =
      if c.mailbox.length < 16 then c.mailbox ++ [m] else c.mailbox := by
  unfold trySend
  by_cases h : c.mailbox.length < 16 <;> simp [h]

theorem trySend_grows (c : ClientState) (m : ChatMessage) :
    ∃ rest, (trySend c m).mailbox = c.mailbox ++ rest := by
  rw [trySend_mailbox]
  by_cases h : c.mailbox.length < 16
  · exact ⟨[m], by simp [h]⟩
  · exact ⟨[], by simp [h]⟩

theorem findRoom_setRoom_self (rooms : List (String × RoomState)) (rn : String)
    (r r' : RoomState) (h : findRoom rooms rn = some r) :
    findRoom (setRoom rooms rn r') rn = some r' := by
  induction rooms with
  | nil => simp [findRoom] at h
  | cons p rest ih =>
      by_cases hp : p.1 = rn
      · simp [setRoom, findRoom, hp]
      · simp only [findRoom, hp, if_neg, not_false_iff] at h
        simp [setRoom, findRoom, hp, ih h]

theorem findRoom_none_iff (rooms : List (String × RoomState)) (rn : String) :
    findRoom rooms rn = none ↔ rn ∉ rooms.map Prod.fst := by
  induction rooms with
  | nil => simp [findRoom]
  | cons p rest ih =>
      by_cases hp : p.1 = rn
      · simp [findRoom, hp]
      · simp [findRoom, hp, ih, Ne.symm hp]

theorem findRoom_mem (rooms : List (String × RoomState)) (rn : String) (r : RoomState)
    (h : findRoom rooms rn = some r) : (rn, r) ∈ rooms := by
  induction rooms with
  | nil => simp [findRoom] at h
  | cons p rest ih =>
      by_cases hp : p.1 = rn
      · simp only [findRoom, hp, if_pos] at h
        cases h
        have hpe : (rn, p.2) = p := by rw [← hp]
        rw [hpe]
        exact List.mem_cons_self p rest
      · simp only [findRoom, hp, if_neg, not_false_iff] at h
        exact List.mem_cons_of_mem p (ih h)

theorem keys_setRoom (rooms : List (String × RoomState)) (rn : String) (r : RoomState) :
    (setRoom rooms rn r).map Prod.fst = rooms.map Prod.fst := by
  induction rooms with
  | nil => rfl
  | cons p rest ih =>
      by_cases hp : p.1 = rn <;> simp [setRoom, hp, ih]

theorem mem_setRoom (rooms : List (String × RoomState)) (rn : String) (r : RoomState)
    (p : String × RoomState) (h : p ∈ setRoom rooms rn r) :
    p ∈ rooms ∨ p = (rn, r) := by
  induction rooms with
  | nil => simp [setRoom] at h
  | cons q rest ih =>
      by_cases hq : q.1 = rn
      · simp only [setRoom, hq, if_pos] at h
        rcases List.mem_cons.mp h with h1 | h1
        · right; exact h1
        · left; exact List.mem_cons_of_mem q h1
      · simp only [setRoom, hq, if_neg, not_false_iff] at h
        rcases List.mem_cons.mp h with h1 | h1
        · left; rw [h1]; exact List.mem_cons_self q rest
        · rcases ih h1 with h2 | h2
          · left; exact List.mem_cons_of_mem q h2
          · right; exact h2

theorem mem_setRoom_strong (rooms : List (String × RoomState)) (rn : String)
    (r : RoomState) (p : String × RoomState)
    (hn : (rooms.map Prod.fst).Nodup) (h : p ∈ setRoom rooms rn r) :
    (p ∈ rooms ∧ p.1 ≠ rn) ∨ p = (rn, r) := by
  induction rooms with
  | nil => simp [setRoom] at h
  | cons q rest ih =>
      have hn' : (rest.map Prod.fst).Nodup := (List.nodup_cons.mp hn).2
      by_cases hq : q.1 = rn
      · simp only [setRoom, hq, if_pos] at h
        rcases List.mem_cons.mp h with h1 | h1
        · right; exact h1
        · left
          refine ⟨List.mem_cons_of_mem q h1, ?_⟩
          have hq1 : q.1 ∉ rest.map Prod.fst := (List.nodup_cons.mp hn).1
          intro hcon
          exact hq1 (hq ▸ hcon ▸ List.mem_map_of_mem Prod.fst h1)
      · simp only [setRoom, hq, if_neg, not_false_iff] at h
        rcases List.mem_cons.mp h with h1 | h1
        · left; exact ⟨by rw [h1]; exact List.mem_cons_self q rest, by rw [h1]; exact hq⟩
        · rcases ih hn' h1 with ⟨h2, h3⟩ | h2
          · left; exact ⟨List.mem_cons_of_mem q h2, h3⟩
          · right; exact h2

theorem getRoomIn_found (rooms : List (String × RoomState)) (rn : String) :
    findRoom (getRoomIn rooms rn).1 rn = some (getRoomIn rooms rn).2 := by
  unfold getRoomIn
  cases hf : findRoom rooms rn with
  | some r => exact hf
  | none =>
      simp only
      induction rooms with
      | nil => simp [findRoom]
      | cons p rest ih =>
          by_cases hp : p.1 = rn
          · simp [findRoom, hp] at hf
          · simp only [findRoom, hp, if_neg, not_false_iff] at hf
            simpa [findRoom, hp] using ih hf

theorem mem_getRoomIn (rooms : List (String × RoomState)) (rn : String)
    (p : String × RoomState) (h : p ∈ (getRoomIn rooms rn).1) :
    p ∈ rooms ∨ p = (rn, newRoom rn) := by
  unfold getRoomIn at h
  cases hf : findRoom rooms rn with
  | some r => rw [hf] at h; exact Or.inl h
  | none =>
      rw [hf] at h
      simp only at h
      rcases List.mem_append.mp h with h1 | h1
      · exact Or.inl h1
      · exact Or.inr (List.mem_singleton.mp h1)

theorem getRoomIn_of_found (rooms : List (String × RoomState)) (rn : String)
    (r : RoomState) (h : findRoom rooms rn = some r) :
    getRoomIn rooms rn = (rooms, r) := by
  unfold getRoomIn
  rw [h]

theorem keys_getRoomIn_nodup (rooms : List (String × RoomState)) (rn : String)
    (hn : (rooms.map Prod.fst).Nodup) :
    ((getRoomIn rooms rn).1.map Prod.fst).Nodup := by
  unfold getRoomIn
  cases hf : findRoom rooms rn with
  | some r => exact hn
  | none =>
      simp only [List.map_append, List.map_cons, List.map_nil]
      rw [List.nodup_append]
      refine ⟨hn, List.nodup_singleton _, ?_⟩
      intro a ha hb
      rw [List.mem_singleton] at hb
      subst hb
      exact (findRoom_none_iff rooms a).mp hf ha

theorem findClient_isSome_map (g : Nat × ClientState → Nat × ClientState)
    (hg : ∀ p, (g p).1 = p.1) (cs : List (Nat × ClientState)) (id : Nat) :
    (findClient (cs.map g) id).isSome = (findClient cs id).isSome := by
  induction cs with
  | nil => rfl
  | cons p rest ih =>
      simp only [List.map_cons, findClient, hg p]
      by_cases hp : p.1 = id
      · simp [hp]
      · simp [hp, ih]

theorem findClient_append_isSome (cs ys : List (Nat × ClientState)) (id : Nat)
    (h : (findClient cs id).isSome) : (findClient (cs ++ ys) id).isSome := by
  induction cs with
  | nil => simp [findClient] at h
  | cons p rest ih =>
      simp only [List.cons_append, findClient]
      by_cases hp : p.1 = id
      · simp [hp]
      · simp only [findClient, hp, if_neg, not_false_iff] at h
        simp [hp, ih h]

theorem findClient_filter_ne (cs : List (Nat × ClientState)) (id id2 : Nat)
    (hne : id2 ≠ id) (h : (findClient cs id2).isSome) :
    (findClient (cs.filter fun p => p.1 ≠ id) id2).isSome := by
  induction cs with
  | nil => simp [findClient] at h
  | cons p rest ih =>
      by_cases hp2 : p.1 = id2
      · have hpd : p.1 ≠ id := by rw [hp2]; exact hne
        have hf : (p :: rest).filter (fun q => q.1 ≠ id) =
            p :: rest.filter (fun q => q.1 ≠ id) := by
          rw [List.filter_cons, if_pos (by simpa using hpd)]
        rw [hf]
        simp [findClient, hp2]
      · simp only [findClient, hp2, if_neg, not_false_iff] at h
        by_cases hpd : p.1 = id
        · have hf : (p :: rest).filter (fun q => q.1 ≠ id) =
              rest.filter (fun q => q.1 ≠ id) := by
            rw [List.filter_cons, if_neg (by simpa using hpd)]
          rw [hf]
          exact ih h
        · have hf : (p :: rest).filter (fun q => q.1 ≠ id) =
              p :: rest.filter (fun q => q.1 ≠ id) := by
            rw [List.filter_cons, if_pos (by simpa using hpd)]
          rw [hf]
          simpa [findClient, hp2] using ih h

theorem findClient_deliverToMembers (cs : List (Nat × ClientState)) (members : List Nat)
    (m : ChatMessage) (id : Nat) :
    findClient (deliverToMembers cs members m) id =
      (findClient cs id).map (fun st => if id ∈ members then trySend st m else st) := by
  induction cs with
  | nil => rfl
  | cons p rest ih =>
      simp only [deliverToMembers, List.map_cons]
      by_cases hp : p.1 = id
      · by_cases hm : p.1 ∈ members
        · simp [findClient, hp, hm, hp ▸ hm]
        · simp only [hm, if_neg, not_false_iff]
          have : id ∉ members := hp ▸ hm
          simp [findClient, hp, this]
      · by_cases hm : p.1 ∈ members
        · simp only [hm, if_pos]
          simpa [findClient, hp] using ih
        · simp only [hm, if_neg, not_false_iff]
          simpa [findClient, hp] using ih

theorem mem_updClient_of_ne (cs : List (Nat × ClientState)) (id : Nat)
    (f : ClientState → ClientState) (p : Nat × ClientState)
    (hp : p ∈ cs) (hne : p.1 ≠ id) : p ∈ updClient cs id f := by
  unfold updClient
  have : (if p.1 = id then (p.1, f p.2) else p) = p := by rw [if_neg hne]
  exact this ▸ List.mem_map_of_mem _ hp

theorem findClient_updClient_fresh (cs : List (Nat × ClientState)) (id : Nat)
    (c : ClientState) (f : ClientState → ClientState)
    (hfresh : ∀ p ∈ cs, p.1 ≠ id) :
    findClient (updClient (cs ++ [(id, c)]) id f) id = some (f c) := by
  induction cs with
  | nil => simp [updClient, findClient]
  | cons p rest ih =>
      have hp : p.1 ≠ id := hfresh p (List.mem_cons_self p rest)
      simp only [List.cons_append, updClient, List.map_cons, hp, if_neg, not_false_iff]
      simp only [findClient, hp, if_neg, not_false_iff]
      exact ih fun q hq => hfresh q (List.mem_cons_of_mem p hq)

theorem replayHistory_trace_aux (hist : List ChatMessage) :
    ∀ (c : ClientState) (acc : List ChatMessage),
      (hist.foldl (fun a m => ((sendMessage a.1 m).1, a.2 ++ [m])) (c, acc)).2 =
        acc ++ hist := by
  induction hist with
  | nil => intro c acc; simp
  | cons m ms ih =>
      intro c acc
      rw [List.foldl_cons]
      rw [ih ((sendMessage c m).1) (acc ++ [m])]
      simp

theorem replayHistory_trace (c : ClientState) (hist : List ChatMessage) :
    (replayHistory c hist).2 = hist := by
  unfold replayHistory
  rw [replayHistory_trace_aux hist c []]
  simp

theorem replayHistory_state_aux (hist : List ChatMessage) :
    ∀ (c : ClientState) (acc : List ChatMessage),
      (hist.foldl (fun a m => ((sendMessage a.1 m).1, a.2 ++ [m])) (c, acc)).1 =
        hist.foldl (fun st m => (sendMessage st m).1) c := by
  induction hist with
  | nil => intro c acc; rfl
  | cons m ms ih =>
      intro c acc
      rw [List.foldl_cons, List.foldl_cons, ih]

theorem sendMessage_foldl_mailbox (hist : List ChatMessage) :
    ∀ c : ClientState,
      (hist.foldl (fun st m => (sendMessage st m).1) c).mailbox =
        c.mailbox ++ hist.take (16 - c.mailbox.length) := by
  induction hist with
  | nil => intro c; simp
  | cons m ms ih =>
      intro c
      rw [List.foldl_cons, ih]
      rw [sendMessage_fst]
      by_cases h : c.mailbox.length < 16
      · have hm : (trySend c m).mailbox = c.mailbox ++ [m] := by
          rw [trySend_mailbox, if_pos h]
        rw [hm]
        have hlen : (c.mailbox ++ [m]).length = c.mailbox.length + 1 := by simp
        rw [hlen]
        have htake : 16 - c.mailbox.length = (16 - (c.mailbox.length + 1)) + 1 := by omega
        rw [htake, List.take_succ_cons, List.append_assoc]
        rfl
      · have hm : (trySend c m).mailbox = c.mailbox := by
          rw [trySend_mailbox, if_neg h]
        rw [hm]
        have h0 : 16 - c.mailbox.length = 0 := by omega
        rw [h0]
        rfl

theorem replayHistory_mailbox (c : ClientState) (hist : List ChatMessage)
    (hmb : c.mailbox = []) :
    (replayHistory c hist).1.mailbox = hist.take 16 := by
  unfold replayHistory
  rw [replayHistory_state_aux hist c [], sendMessage_foldl_mailbox, hmb]
  simp

theorem registerClient_eq (w : World) (id : Nat) (c : ClientState) (t : Int)
    (r : RoomState) (hr : findRoom w.rooms c.roomName = some r) :
    registerClient w id c t =
      ({ clients := updClient (w.clients ++ [(id, c)]) id
            (fun _ => (replayHistory c r.history).1),
         rooms := setRoom w.rooms c.roomName
           { r with members := insertMember r.members id,
                    queue := r.queue ++ [joinMessage c.username r.name t] } },
       (replayHistory c r.history).2) := by
  unfold registerClient
  rw [getRoomIn_of_found w.rooms c.roomName r hr]

theorem roomRunMsgs_history (rn : String) (msgs : List ChatMessage) :
    ∀ (w : World) (r : RoomState), findRoom w.rooms rn = some r →
      ∃ r', findRoom (roomRunMsgs w rn msgs).rooms rn = some r' ∧
        r'.history = msgs.foldl histAppend r.history ∧
        r'.members = r.members := by
  induction msgs with
  | nil =>
      intro w r hr
      exact ⟨r, hr, rfl, rfl⟩
  | cons m ms ih =>
      intro w r hr
      have hstep : roomStepMsg w rn m =
          { clients := deliverToMembers w.clients r.members m,
            rooms := setRoom w.rooms rn { r with history := histAppend r.history m } } := by
        unfold roomStepMsg
        rw [hr]
      have hfind : findRoom (roomStepMsg w rn m).rooms rn =
          some { r with history := histAppend r.history m } := by
        rw [hstep]
        exact findRoom_setRoom_self w.rooms rn r _ hr
      have hrun : roomRunMsgs w rn (m :: ms) = roomRunMsgs (roomStepMsg w rn m) rn ms := by
        unfold roomRunMsgs
        rw [List.foldl_cons]
      rw [hrun]
      obtain ⟨r', h1, h2, h3⟩ := ih (roomStepMsg w rn m) _ hfind
      exact ⟨r', h1, by rw [h2, List.foldl_cons], h3⟩

-- ------------------------------------------------------------------
-- Claim theorems
-- ------------------------------------------------------------------

/-- C1: starting from a room's initial empty history, processing any
sequence of more than 50 messages through the room's loop leaves a retained
history of exactly 50 entries: the last 50 processed messages, in their
original relative order. -/
theorem history_cap_last_fifty (w : World) (rn : String) (r : RoomState)
    (msgs : List ChatMessage)
    (hr : findRoom w.rooms rn = some r) (hempty : r.history = [])
    (hN : msgs.length > 50) :
    ∃ r', findRoom (roomRunMsgs w rn msgs).rooms rn = some r' ∧
      r'.history = msgs.drop (msgs.length - 50) ∧
      r'.history.length = 50 := by
  obtain ⟨r', h1, h2, _⟩ := roomRunMsgs_history rn msgs w r hr
  rw [hempty] at h2
  have hfold : msgs.foldl histAppend [] = takeLast 50 ([] ++ msgs) :=
    foldl_histAppend msgs [] (by simp)
  rw [List.nil_append] at hfold
  refine ⟨r', h1, ?_, ?_⟩
  · rw [h2, hfold]; rfl
  · rw [h2, hfold]
    unfold takeLast
    rw [List.length_drop]
    omega

/-- C1 witness: 51 identical broadcasts through the lobby's loop leave
exactly the last 50 in the history. -/
theorem history_cap_last_fifty_witness :
    ∃ r', findRoom (roomRunMsgs w1 "lobby" (List.replicate 51 plainMsg)).rooms "lobby" = some r' ∧
      r'.history = (List.replicate 51 plainMsg).drop ((List.replicate 51 plainMsg).length - 50) ∧
      r'.history.length = 50 :=
  history_cap_last_fifty w1 "lobby"
    { name := "lobby", members := [0], queue := [], history := [] }
    (List.replicate 51 plainMsg) (by decide) (by decide) (by decide)

/-- C9: Client.SendMessage never blocks (it is a total non-blocking enqueue)
and always returns nil; the message is enqueued when the capacity-16 mailbox
has free space and silently dropped otherwise, the state change agrees with
the raw non-blocking channel send used elsewhere, and the return value is the
same in both cases, so the caller cannot tell them apart. -/
theorem sendMessage_always_nil_drop_on_full (c : ClientState) (m : ChatMessage) :
    (sendMessage c m).2 = none ∧
    (sendMessage c m).1 = trySend c m ∧
    (sendMessage c m).1.mailbox =
      (if c.mailbox.length < 16 then c.mailbox ++ [m] else c.mailbox) ∧
    (sendMessage c m).1.username = c.username ∧
    (sendMessage c m).1.roomName = c.roomName := by
  unfold sendMessage trySend
  by_cases h : c.mailbox.length < 16 <;> simp [h]

/-- C2 evidence: Client.Close is not idempotent. The second of two
invocations of Close always reaches `close(c.CloseCh)` on an already-closed
channel, which panics at runtime (modelled as `none`), so invoking teardown
twice on any connection panics rather than being a safe no-op. -/
theorem clientClose_second_call_panics (c : ConnState) :
    (clientClose c).bind clientClose = none := by
  unfold clientClose
  by_cases h : c.closeChClosed <;> simp [h]

/-- C6: an inbound frame whose text trims to the empty string is discarded by
ReadSocket before dispatch: no ChatMessage is produced, and the hub state
(every mailbox, every room queue, every history) is left untouched. -/
theorem blank_frame_suppressed (w : World) (u rn : String) (t : Int) (f : Incoming)
    (h : goTrimSpace f.text = "") :
    processFrame u rn t f = none ∧ dispatchFrame w u rn t f = w := by
  have hp : processFrame u rn t f = none := by
    unfold processFrame
    simp [h]
  exact ⟨hp, by unfold dispatchFrame; rw [hp]⟩

/-- C6 witness: a concrete whitespace-only frame is suppressed and leaves a
concrete hub state unchanged. -/
theorem blank_frame_suppressed_witness :
    processFrame "alice" "lobby" 0 { text := "  \t ", to_ := "bob", type_ := "message" } = none ∧
    dispatchFrame w3 "alice" "lobby" 0 { text := "  \t ", to_ := "bob", type_ := "message" } = w3 := by
  have h := blank_frame_suppressed w3 "alice" "lobby" 0
    { text := "  \t ", to_ := "bob", type_ := "message" } (by decide)
  exact h

/-- C8: the routing decision for an inbound frame ignores the `type` field
entirely; a frame with non-blank text is routed as a direct message exactly
when its trimmed `to` is non-empty, and as a broadcast to the connection's
current room exactly when its trimmed `to` is empty. -/
theorem route_driven_by_to_not_type (u rn : String) (t : Int) (f : Incoming) (ty : String) :
    frameRoute u rn t { f with type_ := ty } = frameRoute u rn t f ∧
    (goTrimSpace f.to_ ≠ "" → goTrimSpace f.text ≠ "" →
      frameRoute u rn t f = Dispatch.direct) ∧
    (goTrimSpace f.to_ = "" → goTrimSpace f.text ≠ "" →
      frameRoute u rn t f = Dispatch.toRoom) := by
  refine ⟨?_, ?_, ?_⟩
  · unfold frameRoute processFrame
    by_cases htext : goTrimSpace f.text = "" <;>
      by_cases hto : goTrimSpace f.to_ = "" <;> simp [htext, hto]
  · intro hto htext
    unfold frameRoute processFrame
    simp [htext, hto]
  · intro hto htext
    unfold frameRoute processFrame
    simp [htext, hto]

/-- C8 witness: a concrete frame with `to` present routes direct for two
different `type` values, and with `to` absent routes to the room. -/
theorem route_driven_by_to_not_type_witness :
    frameRoute "alice" "lobby" 0 { text := "hi", to_ := " bob ", type_ := "weird" } =
      frameRoute "alice" "lobby" 0 { text := "hi", to_ := " bob ", type_ := "message" } ∧
    frameRoute "alice" "lobby" 0 { text := "hi", to_ := " bob ", type_ := "message" } =
      Dispatch.direct ∧
    frameRoute "alice" "lobby" 0 { text := "hi", to_ := "", type_ := "message" } =
      Dispatch.toRoom := by
  refine ⟨?_, ?_, ?_⟩
  · exact (route_driven_by_to_not_type "alice" "lobby" 0
      { text := "hi", to_ := " bob ", type_ := "message" } "weird").1
  · exact (route_driven_by_to_not_type "alice" "lobby" 0
      { text := "hi", to_ := " bob ", type_ := "message" } "weird").2.1
      (by decide) (by decide)
  · exact (route_driven_by_to_not_type "alice" "lobby" 0
      { text := "hi", to_ := "", type_ := "message" } "weird").2.2
      (by decide) (by decide)

/-- C5: registering a fresh connection into a room with history
[m1, ..., mk] performs exactly those k SendMessage calls to the joining
connection, in order (the replay trace equals the history); the joining
client's mailbox afterwards holds the replayed prefix (all k messages
whenever k fits the capacity-16 mailbox); no other client is touched; the
room's broadcast queue gains only the join system message (the replay
bypasses it); and any message the room loop processes after the join is
appended to the mailbox strictly after the replayed prefix. -/
theorem join_replay_exact (w : World) (rn : String) (r : RoomState) (id : Nat)
    (c : ClientState) (t : Int)
    (hr : findRoom w.rooms rn = some r) (hcrn : c.roomName = rn)
    (hmb : c.mailbox = []) (hfresh : ∀ p ∈ w.clients, p.1 ≠ id) :
    (registerClient w id c t).2 = r.history ∧
    findClient (registerClient w id c t).1.clients id =
      some (replayHistory c r.history).1 ∧
    (replayHistory c r.history).1.mailbox = r.history.take 16 ∧
    (∀ p ∈ w.clients, p ∈ (registerClient w id c t).1.clients) ∧
    (∃ r', findRoom (registerClient w id c t).1.rooms rn = some r' ∧
      r'.queue = r.queue ++ [joinMessage c.username r.name t] ∧
      r'.history = r.history) ∧
    (∀ m : ChatMessage, ∃ (st : ClientState) (rest : List ChatMessage),
      findClient (roomStepMsg (registerClient w id c t).1 rn m).clients id = some st ∧
      st.mailbox = r.history.take 16 ++ rest) := by
  have hr' : findRoom w.rooms c.roomName = some r := by rw [hcrn]; exact hr
  have heq := registerClient_eq w id c t r hr'
  have hfind1 : findRoom (registerClient w id c t).1.rooms rn =
      some { r with members := insertMember r.members id,
                    queue := r.queue ++ [joinMessage c.username r.name t] } := by
    rw [heq]
    simp only
    rw [hcrn]
    exact findRoom_setRoom_self w.rooms rn r _ hr
  have hcl : findClient (registerClient w id c t).1.clients id =
      some (replayHistory c r.history).1 := by
    rw [heq]
    show findClient (updClient (w.clients ++ [(id, c)]) id
      (fun _ => (replayHistory c r.history).1)) id = some (replayHistory c r.history).1
    exact findClient_updClient_fresh w.clients id c _ hfresh
  refine ⟨?_, hcl, ?_, ?_, ?_, ?_⟩
  · rw [heq]
    exact replayHistory_trace c r.history
  · exact replayHistory_mailbox c r.history hmb
  · intro p hp
    rw [heq]
    simp only
    exact mem_updClient_of_ne _ id _ p (List.mem_append_left _ hp) (hfresh p hp)
  · exact ⟨_, hfind1, rfl, rfl⟩
  · intro m
    have hstep : roomStepMsg (registerClient w id c t).1 rn m =
        { clients := deliverToMembers (registerClient w id c t).1.clients
            (insertMember r.members id) m,
          rooms := setRoom (registerClient w id c t).1.rooms rn
            { r with members := insertMember r.members id,
                     queue := r.queue ++ [joinMessage c.username r.name t],
                     history := histAppend r.history m } } := by
      unfold roomStepMsg
      rw [hfind1]
    rw [hstep]
    simp only
    rw [findClient_deliverToMembers, hcl]
    by_cases hmem : id ∈ insertMember r.members id
    · refine ⟨trySend (replayHistory c r.history).1 m, ?_⟩
      obtain ⟨rest, hrest⟩ := trySend_grows (replayHistory c r.history).1 m
      refine ⟨rest, by simp [hmem], ?_⟩
      rw [hrest, replayHistory_mailbox c r.history hmb]
    · refine ⟨(replayHistory c r.history).1, [], by simp [hmem], ?_⟩
      rw [replayHistory_mailbox c r.history hmb, List.append_nil]

/-- C5 witness: bob joins the lobby whose history is one message; the replay
trace is exactly that history, his mailbox afterwards holds it, alice is
untouched, and the queue gained only bob's join message. -/
theorem join_replay_exact_witness :
    (registerClient
        { clients := [(0, aliceSt)],
          rooms := [("lobby", { name := "lobby", members := [0], queue := [],
                                history := [plainMsg] })] }
        1 bobSt 5).2 = [plainMsg] ∧
    findClient (registerClient
        { clients := [(0, aliceSt)],
          rooms := [("lobby", { name := "lobby", members := [0], queue := [],
                                history := [plainMsg] })] }
        1 bobSt 5).1.clients 1 = some (replayHistory bobSt [plainMsg]).1 ∧
    (replayHistory bobSt [plainMsg]).1.mailbox = [plainMsg] := by
  have h := join_replay_exact
    { clients := [(0, aliceSt)],
      rooms := [("lobby", { name := "lobby", members := [0], queue := [],
                            history := [plainMsg] })] }
    "lobby" { name := "lobby", members := [0], queue := [], history := [plainMsg] }
    1 bobSt 5 (by decide) (by decide) (by decide) (by decide)
  exact ⟨h.1, h.2.1, by rw [h.2.2.1]; rfl⟩

/-- C10: every message the room loop dequeues is appended as the last history
entry — including the "joined" system message published by registration — so
after the hub registers a client and the room loop runs, the history ends
with a Type-"system" entry, and the replay a later-joining connection
receives contains that system message. -/
theorem system_join_message_recorded (w : World) (rn : String) (r : RoomState)
    (id : Nat) (c : ClientState) (t : Int)
    (hr : findRoom w.rooms rn = some r) (hq : r.queue = []) (hcrn : c.roomName = rn) :
    (∀ (hist : List ChatMessage) (m : ChatMessage), ∃ pre, histAppend hist m = pre ++ [m]) ∧
    (joinMessage c.username r.name t).type_ = "system" ∧
    (∃ r2, findRoom (roomProcessNext (registerClient w id c t).1 rn).rooms rn = some r2 ∧
      r2.history = histAppend r.history (joinMessage c.username r.name t) ∧
      r2.history.getLast? = some (joinMessage c.username r.name t) ∧
      (∀ (id2 : Nat) (c2 : ClientState) (t2 : Int), c2.roomName = rn →
        (registerClient (roomProcessNext (registerClient w id c t).1 rn) id2 c2 t2).2 =
          r2.history ∧
        joinMessage c.username r.name t ∈
          (registerClient (roomProcessNext (registerClient w id c t).1 rn) id2 c2 t2).2)) := by
  have hr' : findRoom w.rooms c.roomName = some r := by rw [hcrn]; exact hr
  have heq := registerClient_eq w id c t r hr'
  rw [hq, List.nil_append] at heq
  have hfind1 : findRoom (registerClient w id c t).1.rooms rn =
      some { r with members := insertMember r.members id,
                    queue := [joinMessage c.username r.name t] } := by
    rw [heq]
    simp only
    rw [hcrn]
    exact findRoom_setRoom_self w.rooms rn r _ hr
  have hpn : roomProcessNext (registerClient w id c t).1 rn =
      roomStepMsg
        { registerClient w id c t |>.1 with
          rooms := setRoom (registerClient w id c t).1.rooms rn
            { r with members := insertMember r.members id, queue := [] } }
        rn (joinMessage c.username r.name t) := by
    unfold roomProcessNext
    rw [hfind1]
  have hfind3 : findRoom (setRoom (registerClient w id c t).1.rooms rn
      { r with members := insertMember r.members id, queue := [] }) rn =
      some { r with members := insertMember r.members id, queue := [] } :=
    findRoom_setRoom_self _ rn _ _ hfind1
  have hstep : roomProcessNext (registerClient w id c t).1 rn =
      { clients := deliverToMembers (registerClient w id c t).1.clients
          (insertMember r.members id) (joinMessage c.username r.name t),
        rooms := setRoom (setRoom (registerClient w id c t).1.rooms rn
            { r with members := insertMember r.members id, queue := [] }) rn
          { r with members := insertMember r.members id, queue := [],
                   history := histAppend r.history (joinMessage c.username r.name t) } } := by
    rw [hpn]
    unfold roomStepMsg
    rw [hfind3]
  have hfind2 : findRoom (roomProcessNext (registerClient w id c t).1 rn).rooms rn =
      some { r with members := insertMember r.members id, queue := [],
                    history := histAppend r.history (joinMessage c.username r.name t) } := by
    rw [hstep]
    exact findRoom_setRoom_self _ rn _ _ hfind3
  refine ⟨histAppend_ends_with, rfl, ?_⟩
  refine ⟨_, hfind2, rfl, ?_, ?_⟩
  · obtain ⟨pre, hpre⟩ := histAppend_ends_with r.history (joinMessage c.username r.name t)
    simp only [hpre]
    exact List.getLast?_concat pre
  · intro id2 c2 t2 hcrn2
    have hr2' : findRoom (roomProcessNext (registerClient w id c t).1 rn).rooms c2.roomName =
        some { r with members := insertMember r.members id, queue := [],
                      history := histAppend r.history (joinMessage c.username r.name t) } := by
      rw [hcrn2]
      exact hfind2
    have heq2 := registerClient_eq _ id2 c2 t2 _ hr2'
    constructor
    · rw [heq2]
      exact replayHistory_trace _ _
    · rw [heq2]
      simp only
      rw [replayHistory_trace]
      obtain ⟨pre, hpre⟩ := histAppend_ends_with r.history (joinMessage c.username r.name t)
      rw [hpre]
      exact List.mem_append_right pre (List.mem_singleton_self _)

/-- C10 witness: bob joins the empty lobby, the loop processes his join
message, the history ends with that system entry, and carol's later join
replay contains it. -/
theorem system_join_message_recorded_witness :
    (joinMessage "bob" "lobby" 7).type_ = "system" ∧
    (∃ r2, findRoom (roomProcessNext (registerClient w1 1 bobSt 7).1 "lobby").rooms
        "lobby" = some r2 ∧
      r2.history.getLast? = some (joinMessage "bob" "lobby" 7) ∧
      joinMessage "bob" "lobby" 7 ∈
        (registerClient (roomProcessNext (registerClient w1 1 bobSt 7).1 "lobby")
          2 carolSt 9).2) := by
  have h := system_join_message_recorded w1 "lobby"
    { name := "lobby", members := [0], queue := [], history := [] }
    1 bobSt 7 (by decide) (by decide) (by decide)
  obtain ⟨_, h2, r2, hf, _, hl, hrep⟩ := h
  exact ⟨h2, r2, hf, hl, (hrep 2 carolSt 9 (by decide)).2⟩

/-- C3: a direct message from X to Y is fanned out by Hub.Broadcast through
the non-blocking enqueue to X's and Y's mailboxes (so both named clients
receive it whenever their mailboxes have room), every client named neither X
nor Y is left completely untouched, and no room state changes. -/
theorem direct_message_double_delivery (w : World) (msg : ChatMessage) (X Y : String)
    (kx ky ix iy : Nat) (cx cy : ClientState)
    (hFrom : msg.from_ = X) (hTo : msg.to_ = Y) (hY : Y ≠ "")
    (hkx : w.clients[kx]? = some (ix, cx)) (hcx : cx.username = X)
    (hky : w.clients[ky]? = some (iy, cy)) (hcy : cy.username = Y) :
    (hubBroadcast w msg).rooms = w.rooms ∧
    (hubBroadcast w msg).clients[kx]? = some (ix, trySend cx msg) ∧
    (hubBroadcast w msg).clients[ky]? = some (iy, trySend cy msg) ∧
    (cx.mailbox.length < 16 → (trySend cx msg).mailbox = cx.mailbox ++ [msg]) ∧
    (cy.mailbox.length < 16 → (trySend cy msg).mailbox = cy.mailbox ++ [msg]) ∧
    (∀ (k i : Nat) (c : ClientState), w.clients[k]? = some (i, c) →
      c.username ≠ X → c.username ≠ Y → (hubBroadcast w msg).clients[k]? = some (i, c)) := by
  have hne : msg.to_ ≠ "" := by rw [hTo]; exact hY
  have hcl : (hubBroadcast w msg).clients = deliverDirect w.clients msg := by
    unfold hubBroadcast; rw [if_pos hne]
  have hrooms : (hubBroadcast w msg).rooms = w.rooms := by
    unfold hubBroadcast; rw [if_pos hne]
  refine ⟨hrooms, ?_, ?_, ?_, ?_, ?_⟩
  · rw [hcl]; unfold deliverDirect
    rw [List.getElem?_map, hkx]
    have : cx.username = msg.to_ ∨ cx.username = msg.from_ := Or.inr (by rw [hcx, hFrom])
    simp [this]
  · rw [hcl]; unfold deliverDirect
    rw [List.getElem?_map, hky]
    have : cy.username = msg.to_ ∨ cy.username = msg.from_ := Or.inl (by rw [hcy, hTo])
    simp [this]
  · intro hlt; rw [trySend_mailbox, if_pos hlt]
  · intro hlt; rw [trySend_mailbox, if_pos hlt]
  · intro k i c hk hnx hny
    rw [hcl]; unfold deliverDirect
    rw [List.getElem?_map, hk]
    have : ¬(c.username = msg.to_ ∨ c.username = msg.from_) := by
      rw [hTo, hFrom]; tauto
    simp [this]

/-- C3 witness: in a three-client hub, alice's direct message to bob lands in
both of their empty mailboxes and carol is untouched. -/
theorem direct_message_double_delivery_witness :
    (hubBroadcast w3 dmMsg).rooms = w3.rooms ∧
    (hubBroadcast w3 dmMsg).clients[0]? = some (0, trySend aliceSt dmMsg) ∧
    (hubBroadcast w3 dmMsg).clients[1]? = some (1, trySend bobSt dmMsg) ∧
    (hubBroadcast w3 dmMsg).clients[2]? = some (2, carolSt) := by
  have h := direct_message_double_delivery w3 dmMsg "alice" "bob" 0 1 0 1 aliceSt bobSt
    (by decide) (by decide) (by decide) (by decide) (by decide) (by decide) (by decide)
  exact ⟨h.1, h.2.1, h.2.2.1, h.2.2.2.2.2 2 2 carolSt (by decide) (by decide) (by decide)⟩

/-- C4 counterexample: with only alice connected and a direct message from
alice to the unknown identity "ghost", routing does deliver the message — to
alice's own mailbox (the sender echo) — so the claim that no connection's
mailbox receives anything is false at this input. -/
theorem unknown_recipient_counterexample :
    ghostMsg.to_ = "ghost" ∧
    (∀ p ∈ w1.clients, p.2.username ≠ "ghost") ∧
    (hubBroadcast w1 ghostMsg).clients =
      [(0, { aliceSt with mailbox := [ghostMsg] })] := by
  refine ⟨by decide, by decide, ?_⟩
  decide

/-- C4 amended: a direct message whose recipient is unknown is delivered to
no connection other than the sender; every client not named as the sender is
untouched, no room changes, and the sender (if connected) merely receives
the echo copy through the same non-blocking enqueue. Hub.Broadcast has no
error result at all, so no error reaches the sender. -/
theorem unknown_recipient_echo_only (w : World) (msg : ChatMessage)
    (hTo : msg.to_ ≠ "")
    (hUnknown : ∀ p ∈ w.clients, p.2.username ≠ msg.to_) :
    (hubBroadcast w msg).rooms = w.rooms ∧
    ∀ (k i : Nat) (c : ClientState), w.clients[k]? = some (i, c) →
      (c.username ≠ msg.from_ → (hubBroadcast w msg).clients[k]? = some (i, c)) ∧
      (c.username = msg.from_ →
        (hubBroadcast w msg).clients[k]? = some (i, trySend c msg)) := by
  have hcl : (hubBroadcast w msg).clients = deliverDirect w.clients msg := by
    unfold hubBroadcast; rw [if_pos hTo]
  have hrooms : (hubBroadcast w msg).rooms = w.rooms := by
    unfold hubBroadcast; rw [if_pos hTo]
  refine ⟨hrooms, ?_⟩
  intro k i c hk
  have hmem : (i, c) ∈ w.clients := List.getElem?_mem hk
  have hnotto : c.username ≠ msg.to_ := hUnknown (i, c) hmem
  constructor
  · intro hnf
    rw [hcl]; unfold deliverDirect
    rw [List.getElem?_map, hk]
    have : ¬(c.username = msg.to_ ∨ c.username = msg.from_) := by tauto
    simp [this]
  · intro hf
    rw [hcl]; unfold deliverDirect
    rw [List.getElem?_map, hk]
    have : c.username = msg.to_ ∨ c.username = msg.from_ := Or.inr hf
    simp [this]

/-- C4 amended witness: with alice alone, her message to "ghost" leaves the
rooms untouched and only her own mailbox gets the echo copy. -/
theorem unknown_recipient_echo_only_witness :
    (hubBroadcast w1 ghostMsg).rooms = w1.rooms ∧
    (hubBroadcast w1 ghostMsg).clients[0]? = some (0, trySend aliceSt ghostMsg) := by
  have h := unknown_recipient_echo_only w1 ghostMsg (by decide) (by decide)
  exact ⟨h.1, (h.2 0 0 aliceSt (by decide)).2 (by decide)⟩

-- ------------------------------------------------------------------
-- Registry-invariant machinery (C7)
-- ------------------------------------------------------------------

theorem mem_insertMember (members : List Nat) (id a : Nat)
    (h : a ∈ insertMember members id) : a ∈ members ∨ a = id := by
  unfold insertMember at h
  by_cases hm : id ∈ members
  · rw [if_pos hm] at h; exact Or.inl h
  · rw [if_neg hm] at h
    rcases List.mem_append.mp h with h1 | h1
    · exact Or.inl h1
    · exact Or.inr (List.mem_singleton.mp h1)

theorem getRoomIn_members (rooms : List (String × RoomState)) (rn : String)
    (a : Nat) (h : a ∈ (getRoomIn rooms rn).2.members) :
    ∃ q ∈ rooms, a ∈ q.2.members := by
  unfold getRoomIn at h
  cases hf : findRoom rooms rn with
  | some r =>
      rw [hf] at h
      exact ⟨(rn, r), findRoom_mem rooms rn r hf, h⟩
  | none =>
      rw [hf] at h
      simp [newRoom] at h

theorem findClient_isSome_append_self (cs : List (Nat × ClientState)) (id : Nat)
    (c : ClientState) : (findClient (cs ++ [(id, c)]) id).isSome := by
  induction cs with
  | nil => simp [findClient]
  | cons p rest ih =>
      simp only [List.cons_append, findClient]
      by_cases hp : p.1 = id <;> simp [hp, ih]

theorem findClient_updClient_isSome (cs : List (Nat × ClientState)) (id id2 : Nat)
    (f : ClientState → ClientState) (h : (findClient cs id2).isSome) :
    (findClient (updClient cs id f) id2).isSome := by
  unfold updClient
  rw [findClient_isSome_map (fun p => if p.1 = id then (p.1, f p.2) else p)
    (fun p => by by_cases hp : p.1 = id <;> simp [hp]) cs id2]
  exact h

theorem findClient_deliverDirect_isSome (cs : List (Nat × ClientState))
    (msg : ChatMessage) (id2 : Nat) (h : (findClient cs id2).isSome) :
    (findClient (deliverDirect cs msg) id2).isSome := by
  unfold deliverDirect
  rw [findClient_isSome_map _
    (fun p => by
      by_cases hp : p.2.username = msg.to_ ∨ p.2.username = msg.from_ <;> simp [hp]) cs id2]
  exact h

theorem findClient_deliverToMembers_isSome (cs : List (Nat × ClientState))
    (members : List Nat) (m : ChatMessage) (id2 : Nat)
    (h : (findClient cs id2).isSome) :
    (findClient (deliverToMembers cs members m) id2).isSome := by
  rw [findClient_deliverToMembers]
  cases hf : findClient cs id2 with
  | none => rw [hf] at h; simp at h
  | some st => simp

theorem registerClient_rooms (w : World) (id : Nat) (c : ClientState) (t : Int) :
    (registerClient w id c t).1.rooms =
      setRoom (getRoomIn w.rooms c.roomName).1 c.roomName
        { (getRoomIn w.rooms c.roomName).2 with
          members := insertMember (getRoomIn w.rooms c.roomName).2.members id,
          queue := (getRoomIn w.rooms c.roomName).2.queue ++
            [joinMessage c.username (getRoomIn w.rooms c.roomName).2.name t] } := rfl

theorem registerClient_clients (w : World) (id : Nat) (c : ClientState) (t : Int) :
    (registerClient w id c t).1.clients =
      updClient (w.clients ++ [(id, c)]) id
        (fun _ => (replayHistory c (getRoomIn w.rooms c.roomName).2.history).1) := rfl

theorem handlerPreInsert_clients (w : World) (id : Nat) (rn : String) :
    (handlerPreInsert w id rn).clients = w.clients := rfl

theorem handlerPreInsert_rooms (w : World) (id : Nat) (rn : String) :
    (handlerPreInsert w id rn).rooms =
      setRoom (getRoomIn w.rooms rn).1 rn
        { (getRoomIn w.rooms rn).2 with
          members := insertMember (getRoomIn w.rooms rn).2.members id } := rfl

theorem unregisterClient_clients (w : World) (id : Nat) (u rn : String) (t : Int) :
    (unregisterClient w id u rn t).clients = w.clients.filter (fun p => p.1 ≠ id) := rfl

theorem unregisterClient_rooms (w : World) (id : Nat) (u rn : String) (t : Int) :
    (unregisterClient w id u rn t).rooms =
      setRoom (getRoomIn w.rooms rn).1 rn
        { (getRoomIn w.rooms rn).2 with
          members := (getRoomIn w.rooms rn).2.members.filter (fun m => m ≠ id),
          queue := (getRoomIn w.rooms rn).2.queue ++
            [leftMessage u (getRoomIn w.rooms rn).2.name t] } := rfl

theorem members_provenance_register (w : World) (id : Nat) (c : ClientState) (t : Int)
    (p : String × RoomState) (hp : p ∈ (registerClient w id c t).1.rooms)
    (id2 : Nat) (hid2 : id2 ∈ p.2.members) :
    id2 = id ∨ ∃ q ∈ w.rooms, id2 ∈ q.2.members := by
  rw [registerClient_rooms] at hp
  rcases mem_setRoom _ _ _ p hp with h1 | h1
  · rcases mem_getRoomIn _ _ p h1 with h2 | h2
    · exact Or.inr ⟨p, h2, hid2⟩
    · rw [h2] at hid2
      simp [newRoom] at hid2
  · rw [h1] at hid2
    simp only at hid2
    rcases mem_insertMember _ _ _ hid2 with h3 | h3
    · exact Or.inr (getRoomIn_members w.rooms c.roomName id2 h3)
    · exact Or.inl h3

theorem members_provenance_pre (w : World) (id : Nat) (rn : String)
    (p : String × RoomState) (hp : p ∈ (handlerPreInsert w id rn).rooms)
    (id2 : Nat) (hid2 : id2 ∈ p.2.members) :
    id2 = id ∨ ∃ q ∈ w.rooms, id2 ∈ q.2.members := by
  rw [handlerPreInsert_rooms] at hp
  rcases mem_setRoom _ _ _ p hp with h1 | h1
  · rcases mem_getRoomIn _ _ p h1 with h2 | h2
    · exact Or.inr ⟨p, h2, hid2⟩
    · rw [h2] at hid2
      simp [newRoom] at hid2
  · rw [h1] at hid2
    simp only at hid2
    rcases mem_insertMember _ _ _ hid2 with h3 | h3
    · exact Or.inr (getRoomIn_members w.rooms rn id2 h3)
    · exact Or.inl h3

theorem roomKeysNodup_setRoom (rooms : List (String × RoomState)) (rn : String)
    (r : RoomState) (hn : (rooms.map Prod.fst).Nodup) :
    ((setRoom rooms rn r).map Prod.fst).Nodup := by
  rw [keys_setRoom]
  exact hn

/-- C7 counterexample: ChatConnectionHandler inserts the new connection into
the room's member set before the hub processes the registration; at the
observable state between those two steps (here: the first connection to a
fresh hub), the connection is a member of "lobby" but absent from the hub's
global client set, refuting the claimed always-holding inclusion. -/
theorem member_without_global_counterexample :
    (∃ r, findRoom (handlerPreInsert { clients := [], rooms := [] } 0 "lobby").rooms
        "lobby" = some r ∧ 0 ∈ r.members) ∧
    findClient (handlerPreInsert { clients := [], rooms := [] } 0 "lobby").clients 0 =
      none :=
  ⟨⟨{ name := "lobby", members := [0], queue := [], history := [] },
    by decide, by decide⟩, by decide⟩

/-- C7 amended: at the completion boundary of every complete hub operation
(full connect, full disconnect with the client's own room named, routed
message, room-loop step), the inclusion holds: every member of any room is
in the hub's global client set — and the room map keeps distinct keys. The
inclusion can fail between an operation's micro-steps (see the
counterexample). -/
theorem member_implies_global_after_complete_op (w : World) (op : HubOp)
    (hinv : memberInv w) (hnodup : roomKeysNodup w) (hok : opOK w op) :
    memberInv (applyOp w op) ∧ roomKeysNodup (applyOp w op) := by
  cases op with
  | connect id u rn t =>
      constructor
      · intro p hp id2 hid2
        show (findClient (applyOp w (HubOp.connect id u rn t)).clients id2).isSome
        have hclients :
            (applyOp w (HubOp.connect id u rn t)).clients =
              updClient (w.clients ++ [(id, { username := u, roomName := rn, mailbox := [] })])
                id (fun _ => (replayHistory { username := u, roomName := rn, mailbox := [] }
                  (getRoomIn (handlerPreInsert w id rn).rooms rn).2.history).1) := by
          show (registerClient (handlerPreInsert w id rn) id
            { username := u, roomName := rn, mailbox := [] } t).1.clients = _
          rw [registerClient_clients, handlerPreInsert_clients]
        rw [hclients]
        rcases members_provenance_register (handlerPreInsert w id rn) id
            { username := u, roomName := rn, mailbox := [] } t p hp id2 hid2 with
          h1 | ⟨q, hq, hq2⟩
        · subst h1
          exact findClient_updClient_isSome _ id2 id2 _
            (findClient_isSome_append_self w.clients id2 _)
        · rcases members_provenance_pre w id rn q hq id2 hq2 with h1 | ⟨q', hq', hq2'⟩
          · subst h1
            exact findClient_updClient_isSome _ id2 id2 _
              (findClient_isSome_append_self w.clients id2 _)
          · exact findClient_updClient_isSome _ id id2 _
              (findClient_append_isSome w.clients _ id2 (hinv q' hq' id2 hq2'))
      · show ((applyOp w (HubOp.connect id u rn t)).rooms.map Prod.fst).Nodup
        have hrooms :
            (applyOp w (HubOp.connect id u rn t)).rooms =
              setRoom (getRoomIn (handlerPreInsert w id rn).rooms rn).1 rn
                { (getRoomIn (handlerPreInsert w id rn).rooms rn).2 with
                  members := insertMember
                    (getRoomIn (handlerPreInsert w id rn).rooms rn).2.members id,
                  queue := (getRoomIn (handlerPreInsert w id rn).rooms rn).2.queue ++
                    [joinMessage u (getRoomIn (handlerPreInsert w id rn).rooms rn).2.name t] } :=
          registerClient_rooms (handlerPreInsert w id rn) id
            { username := u, roomName := rn, mailbox := [] } t
        rw [hrooms]
        apply roomKeysNodup_setRoom
        apply keys_getRoomIn_nodup
        rw [handlerPreInsert_rooms]
        exact roomKeysNodup_setRoom _ _ _ (keys_getRoomIn_nodup w.rooms rn hnodup)
  | disconnect id u rn t =>
      have hok' : ∀ p ∈ w.rooms, id ∈ p.2.members → p.1 = rn := hok
      show memberInv (unregisterClient w id u rn t) ∧
        roomKeysNodup (unregisterClient w id u rn t)
      constructor
      · intro p hp id2 hid2
        show (findClient (w.clients.filter fun q => q.1 ≠ id) id2).isSome
        rw [unregisterClient_rooms] at hp
        have hkeys : (((getRoomIn w.rooms rn).1).map Prod.fst).Nodup :=
          keys_getRoomIn_nodup w.rooms rn hnodup
        rcases mem_setRoom_strong _ _ _ p hkeys hp with ⟨h1, hne⟩ | h1
        · rcases mem_getRoomIn _ _ p h1 with h2 | h2
          · have hid2ne : id2 ≠ id := by
              intro hcon
              subst hcon
              exact hne (hok' p h2 hid2)
            exact findClient_filter_ne w.clients id id2 hid2ne (hinv p h2 id2 hid2)
          · rw [h2] at hne
            exact absurd rfl hne
        · rw [h1] at hid2
          simp only at hid2
          have hmem := List.mem_filter.mp hid2
          have hne2 : id2 ≠ id := by simpa using hmem.2
          obtain ⟨q, hq, hq2⟩ := getRoomIn_members w.rooms rn id2 hmem.1
          exact findClient_filter_ne w.clients id id2 hne2 (hinv q hq id2 hq2)
      · show ((unregisterClient w id u rn t).rooms.map Prod.fst).Nodup
        rw [unregisterClient_rooms]
        exact roomKeysNodup_setRoom _ _ _ (keys_getRoomIn_nodup w.rooms rn hnodup)
  | route msg =>
      show memberInv (hubBroadcast w msg) ∧ roomKeysNodup (hubBroadcast w msg)
      unfold hubBroadcast
      by_cases hto : msg.to_ ≠ ""
      · rw [if_pos hto]
        constructor
        · intro p hp id2 hid2
          exact findClient_deliverDirect_isSome _ msg id2 (hinv p hp id2 hid2)
        · exact hnodup
      · rw [if_neg hto]
        cases hf : findRoom w.rooms msg.room with
        | none => exact ⟨hinv, hnodup⟩
        | some r =>
            constructor
            · intro p hp id2 hid2
              rcases mem_setRoom _ _ _ p hp with h1 | h1
              · exact hinv p h1 id2 hid2
              · rw [h1] at hid2
                exact hinv (msg.room, r) (findRoom_mem _ _ r hf) id2 hid2
            · exact roomKeysNodup_setRoom _ _ _ hnodup
  | stepRoom rn =>
      show memberInv (roomProcessNext w rn) ∧ roomKeysNodup (roomProcessNext w rn)
      cases hf : findRoom w.rooms rn with
      | none =>
          have heq : roomProcessNext w rn = w := by
            unfold roomProcessNext
            simp only [hf]
          rw [heq]
          exact ⟨hinv, hnodup⟩
      | some r =>
          cases hq : r.queue with
          | nil =>
              have heq : roomProcessNext w rn = w := by
                unfold roomProcessNext
                simp only [hf, hq]
              rw [heq]
              exact ⟨hinv, hnodup⟩
          | cons m rest =>
              have heq : roomProcessNext w rn =
                  roomStepMsg { w with rooms := setRoom w.rooms rn { r with queue := rest } }
                    rn m := by
                unfold roomProcessNext
                simp only [hf, hq]
              have hfind : findRoom (setRoom w.rooms rn { r with queue := rest }) rn =
                  some { r with queue := rest } :=
                findRoom_setRoom_self w.rooms rn r _ hf
              have hstep : roomStepMsg
                  { w with rooms := setRoom w.rooms rn { r with queue := rest } } rn m =
                  { clients := deliverToMembers w.clients r.members m,
                    rooms := setRoom (setRoom w.rooms rn { r with queue := rest }) rn
                      { r with queue := rest, history := histAppend r.history m } } := by
                unfold roomStepMsg
                rw [hfind]
              rw [heq, hstep]
              constructor
              · intro p hp id2 hid2
                rcases mem_setRoom _ _ _ p hp with h1 | h1
                · rcases mem_setRoom _ _ _ p h1 with h2 | h2
                  · exact findClient_deliverToMembers_isSome _ _ _ _ (hinv p h2 id2 hid2)
                  · rw [h2] at hid2
                    exact findClient_deliverToMembers_isSome _ _ _ _
                      (hinv (rn, r) (findRoom_mem _ _ r hf) id2 hid2)
                · rw [h1] at hid2
                  exact findClient_deliverToMembers_isSome _ _ _ _
                    (hinv (rn, r) (findRoom_mem _ _ r hf) id2 hid2)
              · show ((setRoom (setRoom w.rooms rn { r with queue := rest }) rn
                    { r with queue := rest,
                             history := histAppend r.history m }).map Prod.fst).Nodup
                exact roomKeysNodup_setRoom _ _ _ (roomKeysNodup_setRoom _ _ _ hnodup)

/-- C7 amended witness: on a concrete one-client hub, a complete disconnect
of that client preserves the inclusion and the key uniqueness. -/
theorem member_implies_global_after_complete_op_witness :
    memberInv (applyOp w1 (HubOp.disconnect 0 "alice" "lobby" 3)) ∧
    roomKeysNodup (applyOp w1 (HubOp.disconnect 0 "alice" "lobby" 3)) := by
  have hinv : memberInv w1 := by
    show ∀ p ∈ w1.rooms, ∀ id ∈ p.2.members, (findClient w1.clients id).isSome
    decide
  have hnodup : roomKeysNodup w1 := by
    show (w1.rooms.map Prod.fst).Nodup
    decide
  have hok : opOK w1 (HubOp.disconnect 0 "alice" "lobby" 3) := by
    show ∀ p ∈ w1.rooms, 0 ∈ p.2.members → p.1 = "lobby"
    decide
  exact member_implies_global_after_complete_op w1
    (HubOp.disconnect 0 "alice" "lobby" 3) hinv hnodup hok

end WsChat
